import Mathlib

/-!
Verification of the hierarchical Monte-Carlo-Pi driver
(`cpu_monte_carlo_pi.py`): workload partitioning across MPI ranks,
batch generation for the local multiprocessing pool, node-leader
election, the telemetry-logger supervisor lifecycle, and the root-rank
aggregation.  Each Lean definition is a shallow embedding of the
corresponding Python function or code block.
-/

namespace MonteCarloPi

/-! ## Partitioning of total samples across MPI ranks
Embeds `main`, lines 190-198: `samples_per_rank = total // size`,
`remainder_samples = total % size`, ranks below the remainder get one
extra sample. -/

def my_samples (total_samples size rank : Nat) : Nat :=
  let samples_per_rank := total_samples / size
  let remainder_samples := total_samples % size
  if rank < remainder_samples then samples_per_rank + 1 else samples_per_rank

lemma my_samples_lt (total size rank : Nat) (h : rank < total % size) :
    my_samples total size rank = total / size + 1 := by
  simp [my_samples, h]

lemma my_samples_ge (total size rank : Nat) (h : total % size ≤ rank) :
    my_samples total size rank = total / size := by
  simp [my_samples, Nat.not_lt.mpr h]

lemma sum_ite_lt (size rem : Nat) (h : rem ≤ size) :
    (∑ r in Finset.range size, if r < rem then 1 else 0) = rem := by
  induction size with
  | zero =>
    have h0 : rem = 0 := Nat.le_zero.mp h
    simp [h0]
  | succ n ih =>
    rw [Finset.sum_range_succ]
    rcases Nat.lt_or_ge n rem with hlt | hge
    · have heq : rem = n + 1 := Nat.le_antisymm h hlt
      subst heq
      rw [if_pos hlt]
      have hall : ∀ r ∈ Finset.range n, (if r < n + 1 then 1 else 0) = 1 :=
        fun r hr => if_pos (Nat.lt_succ_of_lt (Finset.mem_range.mp hr))
      rw [Finset.sum_congr rfl hall, Finset.sum_const, Finset.card_range,
        smul_eq_mul, Nat.mul_one]
    · rw [ih hge, if_neg (Nat.not_lt.mpr hge), Nat.add_zero]

lemma sum_my_samples (total size : Nat) (hsize : 1 ≤ size) :
    (∑ r in Finset.range size, my_samples total size r) = total := by
  have hrem : total % size ≤ size := Nat.le_of_lt (Nat.mod_lt total hsize)
  have hsplit : ∀ r : Nat,
      my_samples total size r = total / size + (if r < total % size then 1 else 0) := by
    intro r
    by_cases h : r < total % size <;> simp [my_samples, h]
  calc (∑ r in Finset.range size, my_samples total size r)
      = ∑ r in Finset.range size,
          (total / size + (if r < total % size then 1 else 0)) := by
        exact Finset.sum_congr rfl (fun r _ => hsplit r)
    _ = size * (total / size) + (total % size) := by
        rw [Finset.sum_add_distrib, Finset.sum_const, Finset.card_range,
          sum_ite_lt size (total % size) hrem, smul_eq_mul]
    _ = total := Nat.div_add_mod total size

/-- C1: for `total_trials ≥ 0` and `world_size ≥ 1` the per-rank partition
gives `base + 1` samples to ranks below `total % size` and `base` to the
rest, the counts sum to `total_trials` exactly, and any two ranks differ by
at most one sample. -/
theorem partition_correct (total size : Nat) (hsize : 1 ≤ size) :
    (∀ r, r < total % size → my_samples total size r = total / size + 1)
  ∧ (∀ r, total % size ≤ r → my_samples total size r = total / size)
  ∧ (∑ r in Finset.range size, my_samples total size r) = total
  ∧ (∀ r₁ r₂, my_samples total size r₁ ≤ my_samples total size r₂ + 1) := by
  refine ⟨fun r h => my_samples_lt total size r h,
    fun r h => my_samples_ge total size r h,
    sum_my_samples total size hsize, fun r₁ r₂ => ?_⟩
  by_cases h1 : r₁ < total % size <;> by_cases h2 : r₂ < total % size <;>
    (simp [my_samples, h1, h2]; try omega)

/-- C1 witness: the spec scenario `total_trials = 10, world_size = 3`
yields partitions 4, 3, 3 summing to 10. -/
theorem partition_correct_witness :
    (1 ≤ 3)
  ∧ ((∀ r, r < 10 % 3 → my_samples 10 3 r = 10 / 3 + 1)
      ∧ (∀ r, 10 % 3 ≤ r → my_samples 10 3 r = 10 / 3)
      ∧ (∑ r in Finset.range 3, my_samples 10 3 r) = 10
      ∧ (∀ r₁ r₂, my_samples 10 3 r₁ ≤ my_samples 10 3 r₂ + 1)) :=
  ⟨by decide, partition_correct 10 3 (by decide)⟩

/-! ## Batch-size list for the local multiprocessing pool
Embeds `main`, lines 218-225: `num_full_batches = my_samples // B`
copies of `B`, plus the remainder `my_samples % B` when positive. -/

def batches_for_pool (my_samples mp_batch_size : Nat) : List Nat :=
  let num_full_batches := my_samples / mp_batch_size
  let remaining_for_last_batch := my_samples % mp_batch_size
  List.replicate num_full_batches mp_batch_size ++
    (if 0 < remaining_for_last_batch then [remaining_for_last_batch] else [])

lemma batches_for_pool_sum (n B : Nat) : (batches_for_pool n B).sum = n := by
  unfold batches_for_pool
  by_cases h : 0 < n % B
  · simp only [h, if_pos, List.sum_append, List.sum_const_nat, List.sum_cons,
      List.sum_nil, add_zero]
    rw [Nat.mul_comm]
    exact Nat.div_add_mod n B
  · have h0 : n % B = 0 := Nat.eq_zero_of_not_pos h
    simp only [h0, lt_irrefl, if_neg, List.append_nil, List.sum_const_nat,
      not_false_iff]
    exact Nat.div_mul_cancel (Nat.dvd_of_mod_eq_zero h0)

/-- C2: for `trial_count ≥ 0` and `max_batch_size ≥ 1` the generated batch
list is `trial_count / B` full batches of `B` plus one remainder batch of
`trial_count % B` when that is positive; it is empty at `trial_count = 0`,
no element exceeds `B`, and the elements sum to `trial_count` exactly. -/
theorem batches_correct (n B : Nat) (hB : 1 ≤ B) :
    batches_for_pool n B =
      List.replicate (n / B) B ++ (if 0 < n % B then [n % B] else [])
  ∧ (n = 0 → batches_for_pool n B = [])
  ∧ (∀ b ∈ batches_for_pool n B, b ≤ B)
  ∧ (batches_for_pool n B).sum = n := by
  refine ⟨rfl, ?_, ?_, batches_for_pool_sum n B⟩
  · rintro rfl
    simp [batches_for_pool]
  · intro b hb
    unfold batches_for_pool at hb
    rcases List.mem_append.mp hb with hfull | hrem
    · rw [List.eq_of_mem_replicate hfull]
    · by_cases h : 0 < n % B
      · simp only [h, if_pos] at hrem
        rcases List.mem_singleton.mp hrem with rfl
        exact Nat.le_of_lt (Nat.mod_lt n hB)
      · simp [h] at hrem

/-- C2 witness: `trial_count = 10, max_batch_size = 3` yields batches
`[3, 3, 3, 1]`. -/
theorem batches_correct_witness :
    (1 ≤ 3)
  ∧ (batches_for_pool 10 3 =
        List.replicate (10 / 3) 3 ++ (if 0 < 10 % 3 then [10 % 3] else [])
      ∧ (10 = 0 → batches_for_pool 10 3 = [])
      ∧ (∀ b ∈ batches_for_pool 10 3, b ≤ 3)
      ∧ (batches_for_pool 10 3).sum = 10) :=
  ⟨by decide, batches_correct 10 3 (by decide)⟩

/-! ## Node-leader election
Embeds `start_node_logger_if_leader`, lines 38-46: every rank allgathers
`(rank, hostname)` pairs, then folds over them keeping the smallest rank
sharing its own hostname, starting from its own rank; it is the node
leader iff its rank equals that minimum. -/

def min_rank_on_my_node (pairs : List (Nat × String)) (rank : Nat)
    (my_hostname : String) : Nat :=
  pairs.foldl
    (fun m rh => if rh.2 = my_hostname ∧ rh.1 < m then rh.1 else m) rank

def is_node_leader (pairs : List (Nat × String)) (rank : Nat)
    (my_hostname : String) : Bool :=
  rank == min_rank_on_my_node pairs rank my_hostname

lemma min_rank_cons (rh : Nat × String) (t : List (Nat × String))
    (init : Nat) (h : String) :
    min_rank_on_my_node (rh :: t) init h =
      min_rank_on_my_node t (if rh.2 = h ∧ rh.1 < init then rh.1 else init) h :=
  rfl

lemma min_rank_le_init (pairs : List (Nat × String)) (init : Nat) (h : String) :
    min_rank_on_my_node pairs init h ≤ init := by
  induction pairs generalizing init with
  | nil => exact Nat.le_refl init
  | cons rh t ih =>
    rw [min_rank_cons]
    by_cases hc : rh.2 = h ∧ rh.1 < init
    · rw [if_pos hc]
      exact Nat.le_of_lt (Nat.lt_of_le_of_lt (ih rh.1) hc.2)
    · rw [if_neg hc]
      exact ih init

lemma min_rank_le_mem (pairs : List (Nat × String)) (init : Nat) (h : String)
    (r' : Nat) (hmem : (r', h) ∈ pairs) :
    min_rank_on_my_node pairs init h ≤ r' := by
  induction pairs generalizing init with
  | nil => cases hmem
  | cons rh t ih =>
    rw [min_rank_cons]
    rcases List.mem_cons.mp hmem with heq | htail
    · rw [← heq]
      by_cases hlt : r' < init
      · rw [if_pos ⟨rfl, hlt⟩]
        exact min_rank_le_init t r' h
      · rw [if_neg (fun hx => hlt hx.2)]
        exact Nat.le_trans (min_rank_le_init t init h) (Nat.le_of_not_lt hlt)
    · exact ih _ htail

lemma min_rank_cases (pairs : List (Nat × String)) (init : Nat) (h : String) :
    min_rank_on_my_node pairs init h = init ∨
      ∃ p ∈ pairs, p.2 = h ∧ min_rank_on_my_node pairs init h = p.1 := by
  induction pairs generalizing init with
  | nil => exact Or.inl rfl
  | cons rh t ih =>
    rw [min_rank_cons]
    by_cases hc : rh.2 = h ∧ rh.1 < init
    · rw [if_pos hc]
      rcases ih rh.1 with heq | ⟨p, hp, hph, hpr⟩
      · exact Or.inr ⟨rh, List.mem_cons_self rh t, hc.1, heq⟩
      · exact Or.inr ⟨p, List.mem_cons_of_mem rh hp, hph, hpr⟩
    · rw [if_neg hc]
      rcases ih init with heq | ⟨p, hp, hph, hpr⟩
      · exact Or.inl heq
      · exact Or.inr ⟨p, List.mem_cons_of_mem rh hp, hph, hpr⟩

lemma is_node_leader_iff (pairs : List (Nat × String)) (r : Nat) (h : String)
    (_hmem : (r, h) ∈ pairs) :
    is_node_leader pairs r h = true ↔ ∀ p ∈ pairs, p.2 = h → r ≤ p.1 := by
  rw [is_node_leader, beq_iff_eq]
  constructor
  · intro hr p hp hph
    have hp2 : (p.1, h) ∈ pairs := by
      rw [← hph]
      exact hp
    have := min_rank_le_mem pairs r h p.1 hp2
    omega
  · intro hall
    have hle : min_rank_on_my_node pairs r h ≤ r := min_rank_le_init pairs r h
    have hge : r ≤ min_rank_on_my_node pairs r h := by
      rcases min_rank_cases pairs r h with heq | ⟨p, hp, hph, hpr⟩
      · omega
      · rw [hpr]
        exact hall p hp hph
    omega

/-- C3: over any allgathered list of `(rank, hostname)` pairs with distinct
ranks, a rank in the list is marked leader iff its rank is minimal among the
pairs sharing its hostname; every hostname present in the list has exactly
one leader rank, and a hostname carried by a single rank makes that rank its
own leader. -/
theorem leader_election_correct (pairs : List (Nat × String))
    (_hdist : pairs.Pairwise (fun a b => a.1 ≠ b.1)) :
    (∀ r h, (r, h) ∈ pairs →
        (is_node_leader pairs r h = true ↔ ∀ p ∈ pairs, p.2 = h → r ≤ p.1))
  ∧ (∀ h, (∃ r, (r, h) ∈ pairs) →
        ∃ r, (r, h) ∈ pairs ∧ is_node_leader pairs r h = true ∧
          ∀ r', (r', h) ∈ pairs → is_node_leader pairs r' h = true → r' = r)
  ∧ (∀ r h, (r, h) ∈ pairs → (∀ p ∈ pairs, p.2 = h → p.1 = r) →
        is_node_leader pairs r h = true) := by
  refine ⟨fun r h hmem => is_node_leader_iff pairs r h hmem, ?_, ?_⟩
  · rintro h ⟨r₀, hr₀⟩
    have hmmem : (min_rank_on_my_node pairs r₀ h, h) ∈ pairs := by
      rcases min_rank_cases pairs r₀ h with heq | ⟨p, hp, hph, hpr⟩
      · rw [heq]
        exact hr₀
      · rw [hpr, ← hph]
        exact hp
    refine ⟨min_rank_on_my_node pairs r₀ h, hmmem, ?_, ?_⟩
    · exact (is_node_leader_iff pairs _ h hmmem).mpr
        (fun p hp hph => min_rank_le_mem pairs r₀ h p.1
          (by rw [← hph]; exact hp))
    · intro r' hr' hlead
      have h1 : r' ≤ min_rank_on_my_node pairs r₀ h :=
        (is_node_leader_iff pairs r' h hr').mp hlead _ hmmem rfl
      have h2 : min_rank_on_my_node pairs r₀ h ≤ r' :=
        min_rank_le_mem pairs r₀ h r' hr'
      omega
  · intro r h hmem hsingle
    exact (is_node_leader_iff pairs r h hmem).mpr
      (fun p hp hph => Nat.le_of_eq (hsingle p hp hph).symm)

/-- C3 witness: two ranks on host a and one on host b; rank 0 leads host a,
rank 2 leads host b. -/
theorem leader_election_correct_witness :
    ([((0 : Nat), "a"), (1, "a"), (2, "b")].Pairwise (fun a b => a.1 ≠ b.1))
  ∧ ((∀ r h, (r, h) ∈ [((0 : Nat), "a"), (1, "a"), (2, "b")] →
        (is_node_leader [(0, "a"), (1, "a"), (2, "b")] r h = true ↔
          ∀ p ∈ [((0 : Nat), "a"), (1, "a"), (2, "b")], p.2 = h → r ≤ p.1))
    ∧ (∀ h, (∃ r, (r, h) ∈ [((0 : Nat), "a"), (1, "a"), (2, "b")]) →
        ∃ r, (r, h) ∈ [((0 : Nat), "a"), (1, "a"), (2, "b")] ∧
          is_node_leader [(0, "a"), (1, "a"), (2, "b")] r h = true ∧
          ∀ r', (r', h) ∈ [((0 : Nat), "a"), (1, "a"), (2, "b")] →
            is_node_leader [(0, "a"), (1, "a"), (2, "b")] r' h = true → r' = r)
    ∧ (∀ r h, (r, h) ∈ [((0 : Nat), "a"), (1, "a"), (2, "b")] →
        (∀ p ∈ [((0 : Nat), "a"), (1, "a"), (2, "b")], p.2 = h → p.1 = r) →
        is_node_leader [(0, "a"), (1, "a"), (2, "b")] r h = true)) :=
  ⟨by decide, leader_election_correct [(0, "a"), (1, "a"), (2, "b")] (by decide)⟩

/-! ## Per-rank sequence of MPI collective calls
Embeds the collective structure of `main`: the barrier after the
directory setup (line 158), the `allgather` inside
`start_node_logger_if_leader` when logging is enabled (line 39), the
barrier after logger startup (line 169), then either the zero-sample
early path (lines 200-209: barrier, gather of `(0, 0)`, return) or the
normal path (lines 246-251: barrier, gather of the local tally). -/

inductive CollectiveOp where
  | barrier
  | allgather
  | gather
deriving DecidableEq, Repr

def collective_trace (logging_enabled : Bool) (my_samples : Nat) :
    List CollectiveOp :=
  [CollectiveOp.barrier] ++
    (if logging_enabled then [CollectiveOp.allgather] else []) ++
    [CollectiveOp.barrier] ++
    (if my_samples = 0 then [CollectiveOp.barrier, CollectiveOp.gather]
     else [CollectiveOp.barrier, CollectiveOp.gather])

def rank_results (local_points_in_circle my_samples : Nat) : Nat × Nat :=
  if my_samples = 0 then (0, 0) else (local_points_in_circle, my_samples)

/-- C4: a rank with zero assigned samples executes exactly the same
collective-call sequence, in the same order and multiplicity, as a rank
with any positive sample count, and it contributes the tally `(0, 0)` to
the gather; it is never skipped. -/
theorem zero_sample_rank_collectives (logging_enabled : Bool)
    (my_samples local_points : Nat) :
    collective_trace logging_enabled my_samples =
      collective_trace logging_enabled 0
  ∧ rank_results local_points 0 = (0, 0) := by
  constructor
  · by_cases h : my_samples = 0 <;> simp [collective_trace, h]
  · rfl

/-! ## Root-rank aggregation
Embeds `main`, lines 253-268: the root sums the gathered `(points,
samples)` pairs and divides only under the `total_samples_overall > 0`
guard, leaving the estimate `0` otherwise.  Real arithmetic is modelled
over `ℚ`. -/

def root_estimate (all_rank_results : List (Nat × Nat)) : ℚ :=
  let total_points_in_circle_overall := (all_rank_results.map Prod.fst).sum
  let total_samples_overall := (all_rank_results.map Prod.snd).sum
  if 0 < total_samples_overall then
    4 * (total_points_in_circle_overall : ℚ) / (total_samples_overall : ℚ)
  else 0

/-- C5: whenever the gathered total sample count is positive the root
reports `4 * hits / total`, and the divisor used there is nonzero; when the
total is zero the root reports the estimate `0` without dividing. -/
theorem root_estimate_guarded (all_rank_results : List (Nat × Nat)) :
    (0 < (all_rank_results.map Prod.snd).sum →
      root_estimate all_rank_results =
          4 * ((all_rank_results.map Prod.fst).sum : ℚ) /
            ((all_rank_results.map Prod.snd).sum : ℚ)
        ∧ (((all_rank_results.map Prod.snd).sum : ℚ) ≠ 0))
  ∧ ((all_rank_results.map Prod.snd).sum = 0 →
      root_estimate all_rank_results = 0) := by
  constructor
  · intro hpos
    refine ⟨by simp [root_estimate, hpos], ?_⟩
    have hne : (all_rank_results.map Prod.snd).sum ≠ 0 := by omega
    exact_mod_cast hne
  · intro hzero
    simp [root_estimate, hzero]

/-- C5 witness: gathered results `[(3, 4)]` give the estimate `3`; gathered
results `[(0, 0), (0, 0)]` give the estimate `0`. -/
theorem root_estimate_guarded_witness :
    root_estimate [(3, 4)] = 3 ∧ root_estimate [(0, 0), (0, 0)] = 0 := by
  constructor
  · have h := (root_estimate_guarded [(3, 4)]).1 (by decide)
    rw [h.1]
    norm_num
  · exact (root_estimate_guarded [(0, 0), (0, 0)]).2 (by decide)

/-! ## Sampling kernel and the two execution paths of the local pool
Embeds `monte_carlo_pi_batch`, lines 115-132: the kernel draws one
`(x, y)` point per trial and counts the points with `x*x + y*y ≤ 1`.
The random draws are modelled as a deterministic stream `points`
indexed by the global trial number, so that a batch starting at trial
`start` of size `n` consumes draws `start, ..., start + n - 1`.  The
concurrent path (lines 227-230) maps the kernel over the batch list
and sums; the serial path (lines 237 and 240) runs the kernel once on
the whole partition. -/

def monte_carlo_pi_batch (points : Nat → ℚ × ℚ) (start : Nat) :
    Nat → Nat
  | 0 => 0
  | n + 1 =>
      monte_carlo_pi_batch points start n +
        (if (points (start + n)).1 * (points (start + n)).1 +
            (points (start + n)).2 * (points (start + n)).2 ≤ 1
         then 1 else 0)

def pool_map_sum (points : Nat → ℚ × ℚ) : Nat → List Nat → Nat
  | _, [] => 0
  | start, b :: bs =>
      monte_carlo_pi_batch points start b +
        pool_map_sum points (start + b) bs

lemma monte_carlo_pi_batch_add (points : Nat → ℚ × ℚ) (s a b : Nat) :
    monte_carlo_pi_batch points s (a + b) =
      monte_carlo_pi_batch points s a +
        monte_carlo_pi_batch points (s + a) b := by
  induction b with
  | zero => rfl
  | succ n ih =>
    show monte_carlo_pi_batch points s (a + n + 1) = _
    rw [monte_carlo_pi_batch, ih, monte_carlo_pi_batch,
      Nat.add_assoc s a n, Nat.add_assoc]

lemma pool_map_sum_eq_batch (points : Nat → ℚ × ℚ) (bs : List Nat)
    (s : Nat) :
    pool_map_sum points s bs = monte_carlo_pi_batch points s bs.sum := by
  induction bs generalizing s with
  | nil => rfl
  | cons b t ih =>
    rw [pool_map_sum, ih (s + b), List.sum_cons,
      monte_carlo_pi_batch_add points s b t.sum]

/-- C6: on an identical stream of sample draws, summing the kernel's
per-batch results over the generated batch sequence (the concurrent pool
path) yields exactly the hit count the serial fallback path computes by
invoking the kernel once on the whole partition. -/
theorem pool_serial_equivalence (points : Nat → ℚ × ℚ) (n B : Nat)
    (_hB : 1 ≤ B) :
    pool_map_sum points 0 (batches_for_pool n B) =
      monte_carlo_pi_batch points 0 n := by
  rw [pool_map_sum_eq_batch, batches_for_pool_sum]

/-- C6 witness: with every draw at `(1/2, 1/2)` (always inside the circle),
5 trials split into batches of at most 2 tally 5 hits on both paths. -/
theorem pool_serial_equivalence_witness :
    (1 ≤ 2)
  ∧ pool_map_sum (fun _ => ((1 : ℚ)/2, 1/2)) 0 (batches_for_pool 5 2) =
      monte_carlo_pi_batch (fun _ => ((1 : ℚ)/2, 1/2)) 0 5 :=
  ⟨by decide, pool_serial_equivalence (fun _ => ((1 : ℚ)/2, 1/2)) 5 2 (by decide)⟩

/-! ## Choice between the concurrent pool and the serial path
Embeds `main`, lines 214-240: the pool is used only when
`num_local_workers > 1 and my_samples > mp_batch_size`; on any failure of
the pool machinery, and on the `else` branch, the kernel is called once
with the whole `my_samples`.  `pool_invocations` lists the kernel
invocation sizes of the taken path. -/

def pool_invocations (num_local_workers my_samples mp_batch_size : Nat)
    (pool_fails : Bool) : List Nat :=
  if 1 < num_local_workers ∧ mp_batch_size < my_samples then
    if pool_fails then [my_samples]
    else batches_for_pool my_samples mp_batch_size
  else [my_samples]

/-- C10: whenever the non-concurrent path is taken — a single local worker,
a partition not exceeding one `max_batch_size`, or a failed concurrent
mechanism — the kernel is invoked exactly once, with the rank's entire
trial count as one batch; in particular that single batch exceeds
`max_batch_size` whenever the trial count does. -/
theorem serial_path_single_invocation (w n B : Nat) (pool_fails : Bool)
    (h : w ≤ 1 ∨ n ≤ B ∨ pool_fails = true) :
    pool_invocations w n B pool_fails = [n]
  ∧ (B < n → ∃ b ∈ pool_invocations w n B pool_fails, B < b) := by
  have hmain : pool_invocations w n B pool_fails = [n] := by
    unfold pool_invocations
    rcases h with hw | hn | hf
    · rw [if_neg (fun hx => by omega)]
    · rw [if_neg (fun hx => by omega)]
    · by_cases hc : 1 < w ∧ B < n
      · rw [if_pos hc, if_pos hf]
      · rw [if_neg hc]
  refine ⟨hmain, fun hlt => ⟨n, ?_, hlt⟩⟩
  rw [hmain]
  exact List.mem_singleton.mpr rfl

/-- C10 witness: one worker, 10 samples, batch size 3: a single kernel call
on all 10 samples, which exceeds the batch bound. -/
theorem serial_path_single_invocation_witness :
    ((1 : Nat) ≤ 1 ∨ (10 : Nat) ≤ 3 ∨ false = true)
  ∧ (pool_invocations 1 10 3 false = [10]
      ∧ (3 < 10 → ∃ b ∈ pool_invocations 1 10 3 false, 3 < b)) :=
  ⟨Or.inl (by decide), serial_path_single_invocation 1 10 3 false (Or.inl (by decide))⟩

/-! ## Telemetry-logger supervisor: launch
Embeds `start_node_logger_if_leader`, lines 48-86: only a node leader
attempts the launch; on success (lines 77-82) the `Popen` handle is
stored in `logger_process_object` and the `atexit` cleanup hook is
registered; on any launch exception (lines 84-86) the failure is
printed, the handle is set to `None`, and — because the exception
aborts the `try` block before line 82 — no hook is registered.  The
exception is swallowed, so the embedding is a total function: the
rank's computation continues.  `launch_result` abstracts the outcome of
the `Popen` call (`some pid` on success). -/

structure LoggerState where
  logger_process_object : Option Nat
  atexit_registered : Bool
  logged_failure : Bool
deriving DecidableEq, Repr

def start_logger_attempt (launch_result : Option Nat) : LoggerState :=
  match launch_result with
  | some pid => ⟨some pid, true, false⟩
  | none => ⟨none, false, true⟩

def start_node_logger_if_leader (pairs : List (Nat × String)) (rank : Nat)
    (my_hostname : String) (launch_result : Option Nat) : LoggerState :=
  if is_node_leader pairs rank my_hostname then
    start_logger_attempt launch_result
  else ⟨none, false, false⟩

/-- C7: when the leader's attempt to launch the telemetry agent fails, the
handle stays `None`, the failure is logged, the exit-time termination hook
is not registered, and (the embedding being a total function, the source
catching the exception) the run proceeds without telemetry. -/
theorem launch_failure_recovered (pairs : List (Nat × String)) (rank : Nat)
    (my_hostname : String)
    (hleader : is_node_leader pairs rank my_hostname = true) :
    (start_node_logger_if_leader pairs rank my_hostname
        none).logger_process_object = none
  ∧ (start_node_logger_if_leader pairs rank my_hostname
        none).atexit_registered = false
  ∧ (start_node_logger_if_leader pairs rank my_hostname
        none).logged_failure = true := by
  simp [start_node_logger_if_leader, hleader, start_logger_attempt]

/-- C7 witness: the sole rank 0 on host a is its own leader; a failed
launch leaves no handle and no hook. -/
theorem launch_failure_recovered_witness :
    is_node_leader [((0 : Nat), "a")] 0 "a" = true
  ∧ ((start_node_logger_if_leader [((0 : Nat), "a")] 0 "a"
          none).logger_process_object = none
      ∧ (start_node_logger_if_leader [((0 : Nat), "a")] 0 "a"
          none).atexit_registered = false
      ∧ (start_node_logger_if_leader [((0 : Nat), "a")] 0 "a"
          none).logged_failure = true) :=
  ⟨by decide, launch_failure_recovered [((0 : Nat), "a")] 0 "a" (by decide)⟩

/-! ## Telemetry-logger supervisor: exit-time cleanup
Embeds `cleanup_logger_process`, lines 88-112.  With a cleared handle the
guard on line 93 makes the call a no-op.  With a live handle: SIGINT to
the process group, `wait(timeout=10)`; on `TimeoutExpired`, SIGKILL to
the same group and `wait(timeout=5)` (both inside an inner `try` whose
failures are only logged); any other exception is only logged; the
`finally` on lines 111-112 always clears the handle.  `CleanupOutcome`
enumerates the environment behaviours these handlers distinguish; the
result records the signal calls made, the waits performed, and the final
handle. -/

inductive Sig where
  | sigint
  | sigkill
deriving DecidableEq, Repr

inductive CleanupOutcome where
  /-- the SIGINT `killpg` call itself raises -/
  | sigintSendError
  /-- the process exits within the 10-unit graceful wait -/
  | gracefulExit
  /-- graceful wait times out; SIGKILL delivered and the process reaped
  within the 5-unit wait -/
  | killedAfterTimeout
  /-- graceful wait times out; SIGKILL delivered but the 5-unit wait also
  times out (exception logged) -/
  | killIgnoredAfterTimeout
  /-- graceful wait times out and the SIGKILL `killpg` call raises -/
  | sigkillSendError
deriving DecidableEq, Repr

structure CleanupResult where
  signals : List (Sig × Nat)
  waits : List Nat
  logger_process_object : Option Nat
deriving DecidableEq, Repr

def graceful_wait_timed_out : CleanupOutcome → Bool
  | .sigintSendError => false
  | .gracefulExit => false
  | _ => true

def sends_succeed : CleanupOutcome → Bool
  | .sigintSendError => false
  | .sigkillSendError => false
  | _ => true

def cleanup_logger_process (handle : Option Nat) (pgid : Nat)
    (outcome : CleanupOutcome) : CleanupResult :=
  match handle with
  | none => ⟨[], [], none⟩
  | some _ =>
    match outcome with
    | .sigintSendError => ⟨[(.sigint, pgid)], [], none⟩
    | .gracefulExit => ⟨[(.sigint, pgid)], [10], none⟩
    | .killedAfterTimeout =>
        ⟨[(.sigint, pgid), (.sigkill, pgid)], [10, 5], none⟩
    | .killIgnoredAfterTimeout =>
        ⟨[(.sigint, pgid), (.sigkill, pgid)], [10, 5], none⟩
    | .sigkillSendError => ⟨[(.sigint, pgid), (.sigkill, pgid)], [10], none⟩

/-- C8: on cleanup of a live handle, assuming the signal sends themselves
succeed, the first signal is SIGINT to the agent's process group followed
by a wait of up to 10 units; SIGKILL goes to the same process group iff
that wait times out, is sent at most once, and is followed by a second
wait of up to 5 units; on a graceful exit within the timeout no SIGKILL
is ever sent. -/
theorem cleanup_escalation_protocol (pid pgid : Nat)
    (outcome : CleanupOutcome) (hok : sends_succeed outcome = true) :
    ((cleanup_logger_process (some pid) pgid outcome).signals.head? =
        some (Sig.sigint, pgid))
  ∧ ((cleanup_logger_process (some pid) pgid outcome).waits.head? = some 10)
  ∧ ((Sig.sigkill, pgid) ∈
        (cleanup_logger_process (some pid) pgid outcome).signals ↔
      graceful_wait_timed_out outcome = true)
  ∧ ((cleanup_logger_process (some pid) pgid outcome).signals.count
        (Sig.sigkill, pgid) ≤ 1)
  ∧ (graceful_wait_timed_out outcome = true →
      (cleanup_logger_process (some pid) pgid outcome).waits = [10, 5])
  ∧ (outcome = CleanupOutcome.gracefulExit →
      ∀ g, (Sig.sigkill, g) ∉
        (cleanup_logger_process (some pid) pgid outcome).signals) := by
  cases outcome <;>
    simp_all [cleanup_logger_process, graceful_wait_timed_out, sends_succeed,
      List.count_cons, List.count_nil]

/-- C8 witness: an agent ignoring SIGINT past the graceful timeout gets
exactly one SIGKILL to its process group, followed by the 5-unit wait. -/
theorem cleanup_escalation_protocol_witness :
    sends_succeed CleanupOutcome.killedAfterTimeout = true
  ∧ (((cleanup_logger_process (some 7) 7
          CleanupOutcome.killedAfterTimeout).signals.head? =
        some (Sig.sigint, 7))
    ∧ ((cleanup_logger_process (some 7) 7
          CleanupOutcome.killedAfterTimeout).waits.head? = some 10)
    ∧ ((Sig.sigkill, 7) ∈
          (cleanup_logger_process (some 7) 7
            CleanupOutcome.killedAfterTimeout).signals ↔
        graceful_wait_timed_out CleanupOutcome.killedAfterTimeout = true)
    ∧ ((cleanup_logger_process (some 7) 7
          CleanupOutcome.killedAfterTimeout).signals.count
            (Sig.sigkill, 7) ≤ 1)
    ∧ (graceful_wait_timed_out CleanupOutcome.killedAfterTimeout = true →
        (cleanup_logger_process (some 7) 7
          CleanupOutcome.killedAfterTimeout).waits = [10, 5])
    ∧ (CleanupOutcome.killedAfterTimeout = CleanupOutcome.gracefulExit →
        ∀ g, (Sig.sigkill, g) ∉
          (cleanup_logger_process (some 7) 7
            CleanupOutcome.killedAfterTimeout).signals)) :=
  ⟨by decide, cleanup_escalation_protocol 7 7
    CleanupOutcome.killedAfterTimeout (by decide)⟩

/-- C9: every invocation of the cleanup hook ends with the handle cleared,
whatever the environment does (including signalling errors), and an
invocation on an already-cleared handle sends no signal, performs no wait,
and leaves the state unchanged. -/
theorem cleanup_idempotent (handle : Option Nat) (pgid : Nat)
    (outcome : CleanupOutcome) :
    (cleanup_logger_process handle pgid outcome).logger_process_object = none
  ∧ cleanup_logger_process none pgid outcome =
      ⟨[], [], none⟩ := by
  constructor
  · cases handle <;> cases outcome <;> rfl
  · rfl

end MonteCarloPi
